import Mathlib

/-!
Verification of the BregmanVamp repository (IIR filter engine `iirfilter.c`
and the spectral dissonance pipeline `Dissonance.cpp`).

The C code is shallowly embedded: `float`/`double` arithmetic is modelled by
real numbers, C arrays by lists, and the circular delay-line pointer
arithmetic by integer index arithmetic.  Each definition mirrors one source
function and is named after it where Lean allows.
-/

noncomputable section

open Finset

/-- The delay line of a `FILTER` (iirfilter.c): a buffer of `ndelay` samples
together with the circular read/write cursor `currPos`, represented as an
index into the buffer (the source stores a raw pointer into `p->delay`). -/
structure DelayLine where
  buf : List ℝ
  cursor : ℕ

/-- The index computation of `readFilter` (iirfilter.c lines 340-356):
`readPoint = currPos - i`, wrapped forward by `ndelay` when it falls before
the buffer start and backward by `ndelay` when it falls past the buffer
end. -/
def readIdx (c i n : ℤ) : ℤ :=
  let r := c - i
  if r < 0 then r + n
  else if n - 1 < r then r - n
  else r

/-- `readFilter` (iirfilter.c lines 340-356): dereference the wrapped
read position.  Out-of-range accesses (which the C source never performs
for a coherent filter state) are modelled as 0. -/
def readFilter (p : DelayLine) (i : ℤ) : ℝ :=
  p.buf.getD (readIdx p.cursor i p.buf.length).toNat 0

/-- `insertFilter` (iirfilter.c lines 364-373): write `val` at `currPos`,
increment `currPos`, and wrap it back by `ndelay` when it passes the last
slot (`currPos > delay + ndelay - 1`). -/
def insertFilter (p : DelayLine) (val : ℝ) : DelayLine :=
  { buf := p.buf.set p.cursor val
    cursor :=
      if p.buf.length - 1 < p.cursor + 1 then p.cursor + 1 - p.buf.length
      else p.cursor + 1 }

/-- The delay line as `ifilter`/`izfilter` allocate it:
`calloc(ndelay, sizeof(sampleT))` (all slots zero) with `currPos` at the
start of the buffer. -/
def initDelay (n : ℕ) : DelayLine :=
  ⟨List.replicate n 0, 0⟩

/-- Repeated insertion, oldest first (the order `afilter` performs them). -/
def insertAll (p : DelayLine) (vs : List ℝ) : DelayLine :=
  vs.foldl insertFilter p

theorem getD_replicate_zero (n j : ℕ) : (List.replicate n (0:ℝ)).getD j 0 = 0 := by
  rw [List.getD_eq_getElem?_getD, List.getElem?_replicate]
  split <;> simp

theorem readIdx_eq_emod (c i n : ℤ) (hc0 : 0 ≤ c) (hc : c < n)
    (h1 : 1 ≤ i) (h2 : i ≤ n) : readIdx c i n = (c - i) % n := by
  unfold readIdx
  by_cases hneg : c - i < 0
  · have h0 : (0:ℤ) ≤ c - i + n := by omega
    have h1' : c - i + n < n := by omega
    have hmod : (c - i) % n = (c - i + n) % n := (Int.add_emod_self).symm
    rw [hmod, Int.emod_eq_of_lt h0 h1']
    simp [hneg]
  · have hnot : ¬ (n - 1 < c - i) := by omega
    rw [Int.emod_eq_of_lt (by omega) (by omega)]
    simp [hneg, hnot]

theorem insertFilter_buf (p : DelayLine) (v : ℝ) :
    (insertFilter p v).buf = p.buf.set p.cursor v := rfl

theorem insertFilter_length (p : DelayLine) (v : ℝ) :
    (insertFilter p v).buf.length = p.buf.length := by
  simp [insertFilter]

theorem insertFilter_cursor (p : DelayLine) (v : ℝ)
    (h : p.cursor < p.buf.length ∨ p.buf.length = 0) :
    (insertFilter p v).cursor = (p.cursor + 1) % p.buf.length := by
  rcases h with h | h
  · unfold insertFilter
    by_cases hw : p.buf.length - 1 < p.cursor + 1
    · have : p.cursor + 1 = p.buf.length := by omega
      simp [hw, this]
    · have hlt : p.cursor + 1 < p.buf.length := by omega
      simp [hw, Nat.mod_eq_of_lt hlt]
  · unfold insertFilter
    simp [h]

/-- One-step shift law: after an insertion, reading 1 sample ago yields the
inserted value and reading `i ≥ 2` samples ago yields what reading `i - 1`
samples ago yielded before the insertion. -/
theorem readFilter_insertFilter (p : DelayLine) (v : ℝ) (i : ℤ)
    (hc : p.cursor < p.buf.length) (h1 : 1 ≤ i) (h2 : i ≤ p.buf.length) :
    readFilter (insertFilter p v) i =
      if i = 1 then v else readFilter p (i - 1) := by
  have hn : 1 ≤ p.buf.length := by
    rcases Nat.eq_zero_or_pos p.buf.length with h | h
    · exfalso; rw [h] at h2; simp at h2; omega
    · omega
  set n := p.buf.length with hdefn
  set c := p.cursor with hdefc
  have hcur : (insertFilter p v).cursor = (c + 1) % n :=
    insertFilter_cursor p v (Or.inl hc)
  have hlen : (insertFilter p v).buf.length = n := insertFilter_length p v
  have hcur_lt : (c + 1) % n < n := Nat.mod_lt _ (by omega)
  have hcast : (((c + 1) % n : ℕ) : ℤ) = ((c : ℤ) + 1) % (n : ℤ) := by push_cast; ring
  have hidx : readIdx ((insertFilter p v).cursor) i ((insertFilter p v).buf.length)
      = ((c : ℤ) + 1 - i) % n := by
    rw [hcur, hlen]
    rw [readIdx_eq_emod _ _ _ (by positivity) (by exact_mod_cast hcur_lt) h1 h2]
    rw [hcast, Int.sub_emod, Int.emod_emod, ← Int.sub_emod]
  by_cases hi1 : i = 1
  · subst hi1
    have hceq : ((c : ℤ) + 1 - 1) % n = (c : ℤ) := by
      have h1' : ((c : ℤ) + 1 - 1) = c := by ring
      rw [h1', Int.emod_eq_of_lt (by positivity) (by exact_mod_cast hc)]
    unfold readFilter
    rw [hidx, hceq, if_pos rfl]
    simp only [insertFilter_buf, Int.toNat_natCast]
    rw [List.getD_eq_getElem?_getD, List.getElem?_set_self (by omega)]
    simp
  · have hi2 : 2 ≤ i := by omega
    have hidx2 : readIdx c (i - 1) n = ((c : ℤ) - (i - 1)) % n := by
      apply readIdx_eq_emod _ _ _ (by positivity) (by exact_mod_cast hc) (by omega) (by omega)
    have harith : ((c : ℤ) + 1 - i) % n = ((c : ℤ) - (i - 1)) % n := by ring_nf
    -- the written slot `c` is not the slot being read
    have hne : (((c : ℤ) - (i - 1)) % n).toNat ≠ c := by
      intro heq
      have h0 : (0:ℤ) ≤ ((c : ℤ) - (i - 1)) % n := Int.emod_nonneg _ (by omega)
      have h1' : ((c : ℤ) - (i - 1)) % n < n := Int.emod_lt_of_pos _ (by omega)
      have hcval : ((c : ℤ) - (i - 1)) % n = (c : ℤ) := by omega
      have hc' : (c : ℤ) % n = c := Int.emod_eq_of_lt (by positivity) (by exact_mod_cast hc)
      have hsub : ((c : ℤ) - (i - 1) - c) % n = 0 := by
        rw [Int.sub_emod ((c : ℤ) - (i - 1)) c, hcval, hc']
        simp
      have hb : ((c : ℤ) - (i - 1) - c) = 1 - i := by ring
      rw [hb] at hsub
      have hdvd : ((n : ℤ)) ∣ (1 - i) := Int.dvd_of_emod_eq_zero hsub
      rcases hdvd with ⟨k, hk⟩
      have hk1 : 1 - i < 0 := by omega
      have hk2 : -(n : ℤ) < 1 - i := by omega
      have hn0 : (0:ℤ) < n := by omega
      have hkneg : k < 0 := by nlinarith
      have hle : k ≤ -1 := by omega
      have : (n : ℤ) * k ≤ (n : ℤ) * (-1) := by
        apply mul_le_mul_of_nonneg_left hle (by omega)
      omega
    unfold readFilter
    rw [hidx, harith, if_neg hi1, hidx2]
    simp only [insertFilter_buf]
    rw [List.getD_eq_getElem?_getD, List.getD_eq_getElem?_getD,
      List.getElem?_set_ne (fun h => hne h.symm)]

theorem insertAll_length (vs : List ℝ) (p : DelayLine) :
    (insertAll p vs).buf.length = p.buf.length := by
  induction vs generalizing p with
  | nil => rfl
  | cons v vs ih =>
      simp only [insertAll, List.foldl_cons]
      rw [show List.foldl insertFilter (insertFilter p v) vs = insertAll (insertFilter p v) vs from rfl]
      rw [ih, insertFilter_length]

theorem insertAll_append (p : DelayLine) (vs : List ℝ) (v : ℝ) :
    insertAll p (vs ++ [v]) = insertFilter (insertAll p vs) v := by
  simp [insertAll]

/-- Core delay-line invariant: after inserting `vs` (oldest first) into a
freshly allocated delay line of length `n`, the cursor equals
`vs.length % n` and reading `i` samples ago returns the value inserted `i`
insertions earlier, or 0 when fewer than `i` insertions have happened. -/
theorem insertAll_invariant (n : ℕ) (vs : List ℝ) :
    (insertAll (initDelay n) vs).cursor = vs.length % n ∧
    ∀ i : ℤ, 1 ≤ i → i ≤ n →
      readFilter (insertAll (initDelay n) vs) i =
        if i ≤ vs.length then vs.getD (vs.length - i.toNat) 0 else 0 := by
  induction vs using List.reverseRecOn with
  | nil =>
      constructor
      · simp [insertAll, initDelay]
      · intro i h1 h2
        rw [if_neg (by simp; omega)]
        unfold readFilter insertAll initDelay
        simp only [List.foldl_nil]
        exact getD_replicate_zero n _
  | append_singleton vs v ih =>
      obtain ⟨ihc, ihr⟩ := ih
      have hlen : (insertAll (initDelay n) vs).buf.length = n := by
        rw [insertAll_length]; simp [initDelay]
      rw [insertAll_append]
      rcases Nat.eq_zero_or_pos n with hn | hn
      · subst hn
        constructor
        · rw [insertFilter_cursor _ _ (Or.inr hlen), hlen, ihc]
          simp
        · intro i h1 h2
          exfalso
          simp at h2
          omega
      constructor
      · rw [insertFilter_cursor _ _ (Or.inl (by rw [hlen, ihc]; exact Nat.mod_lt _ hn)), hlen, ihc]
        simp only [List.length_append, List.length_singleton]
        exact (Nat.mod_modEq vs.length n).add_right 1
      · intro i h1 h2
        have hc : (insertAll (initDelay n) vs).cursor < (insertAll (initDelay n) vs).buf.length := by
          rw [hlen, ihc]; exact Nat.mod_lt _ hn
        rw [readFilter_insertFilter _ _ _ hc h1 (by rw [hlen]; exact h2)]
        by_cases hi : i = 1
        · subst hi
          rw [if_pos rfl, if_pos (by simp)]
          have hidx : (vs ++ [v]).length - (1:ℤ).toNat = vs.length := by simp
          rw [hidx, List.getD_append_right vs [v] 0 vs.length (le_refl _)]
          simp
        · rw [if_neg hi, ihr (i - 1) (by omega) (by omega)]
          simp only [List.length_append, List.length_singleton]
          by_cases hle : i - 1 ≤ (vs.length : ℤ)
          · rw [if_pos hle, if_pos (by push_cast; omega)]
            have hlt : vs.length + 1 - i.toNat < vs.length := by omega
            rw [List.getD_append vs [v] 0 _ hlt]
            congr 1
            omega
          · rw [if_neg hle, if_neg (by push_cast; omega)]

/-- The coefficient/order portion of the C `FILTER` struct: numerator length
`numb`, denominator length `numa`, the flat coefficient array `coeffs`
(numerator first, then denominator with the implicit leading 1 cropped),
and the delay line. -/
structure FILTER where
  numb : ℕ
  numa : ℕ
  coeffs : ℕ → ℝ
  dline : DelayLine

/-- `p->ndelay = MAX(p->numb-1, p->numa)` (iirfilter.c line 88). -/
def FILTER.ndelay (p : FILTER) : ℕ := max (p.numb - 1) p.numa

/-- `a = p->coeffs + p->numb` (iirfilter.c line 172). -/
def FILTER.acoef (p : FILTER) (i : ℕ) : ℝ := p.coeffs (p.numb + i)

/-- `b = p->coeffs + 1` (iirfilter.c line 173). -/
def FILTER.bcoef (p : FILTER) (i : ℕ) : ℝ := p.coeffs (1 + i)

/-- `b0 = p->coeffs[0]` (iirfilter.c line 174). -/
def FILTER.b0 (p : FILTER) : ℝ := p.coeffs 0

/-- The pole accumulator of one `afilter` sample (iirfilter.c lines 186-196):
starts at the input sample and subtracts `a[i] * readFilter(p, i+1)` for
each `i < numa` inside the inner loop over the delay length. -/
def poleAcc (p : FILTER) (inSamp : ℝ) : ℝ :=
  inSamp + ∑ i ∈ Finset.range p.ndelay,
    (if i < p.numa then -(p.acoef i) * readFilter p.dline ((i : ℤ) + 1) else 0)

/-- The zero accumulator of one `afilter` sample (iirfilter.c lines 198-201):
sums `b[i] * readFilter(p, i+1)` for each `i < numb - 1`. -/
def zeroAcc (p : FILTER) : ℝ :=
  ∑ i ∈ Finset.range p.ndelay,
    (if i < p.numb - 1 then (p.bcoef i) * readFilter p.dline ((i : ℤ) + 1) else 0)

/-- One sample of `afilter` (iirfilter.c lines 184-207): output
`b0 * poleSamp + zeroSamp`, then insert the pole accumulator into the
delay line. -/
def afilterStep (p : FILTER) (inSamp : ℝ) : ℝ × FILTER :=
  (p.b0 * poleAcc p inSamp + zeroAcc p,
   { p with dline := insertFilter p.dline (poleAcc p inSamp) })

/-- `afilter` over a whole block (the outer loop of iirfilter.c
lines 184-207), returning the output block and the final filter state. -/
def afilter (p : FILTER) : List ℝ → List ℝ × FILTER
  | [] => ([], p)
  | x :: xs =>
    ((afilterStep p x).1 :: (afilter (afilterStep p x).2 xs).1,
     (afilter (afilterStep p x).2 xs).2)

/-- Value lists of the linear recurrence
`v n = drive n − Σ_{i<na} a i · v (n−1−i)` with zero initial history. -/
def lrlist (drive : ℕ → ℝ) (a : ℕ → ℝ) (na : ℕ) : ℕ → List ℝ
  | 0 => []
  | n+1 =>
    let prev := lrlist drive a na n
    prev ++ [drive n - ∑ i ∈ Finset.range na,
      a i * (if i + 1 ≤ n then prev.getD (n - (i+1)) 0 else 0)]

/-- The value of the recurrence at time `n`. -/
def lval (drive : ℕ → ℝ) (a : ℕ → ℝ) (na : ℕ) (n : ℕ) : ℝ :=
  (lrlist drive a na (n+1)).getD n 0

theorem lrlist_succ (drive a : ℕ → ℝ) (na n : ℕ) :
    lrlist drive a na (n+1) = lrlist drive a na n ++
      [drive n - ∑ i ∈ Finset.range na,
        a i * (if i + 1 ≤ n then (lrlist drive a na n).getD (n - (i+1)) 0 else 0)] := rfl

theorem lrlist_length (drive a : ℕ → ℝ) (na : ℕ) :
    ∀ n, (lrlist drive a na n).length = n := by
  intro n
  induction n with
  | zero => rfl
  | succ n ih => rw [lrlist_succ]; simp [ih]

theorem lrlist_getD (drive a : ℕ → ℝ) (na : ℕ) :
    ∀ n j, j < n → (lrlist drive a na n).getD j 0 = lval drive a na j := by
  intro n
  induction n with
  | zero => omega
  | succ n ih =>
      intro j hj
      rcases Nat.lt_or_ge j n with h | h
      · rw [lrlist_succ, List.getD_append _ _ _ _ (by rw [lrlist_length]; exact h)]
        exact ih j h
      · have : j = n := by omega
        subst this
        rfl

theorem lrlist_succ_lval (drive a : ℕ → ℝ) (na n : ℕ) :
    lrlist drive a na (n+1) = lrlist drive a na n ++ [lval drive a na n] := by
  rw [lrlist_succ]
  congr 1
  rw [lval, lrlist_succ, List.getD_append_right _ _ _ _ (by rw [lrlist_length])]
  rw [lrlist_length]
  simp

theorem lval_eq (drive a : ℕ → ℝ) (na n : ℕ) :
    lval drive a na n = drive n - ∑ i ∈ Finset.range na,
      a i * (if i + 1 ≤ n then lval drive a na (n - (i+1)) else 0) := by
  rw [lval, lrlist_succ, List.getD_append_right _ _ _ _ (by rw [lrlist_length])]
  rw [lrlist_length]
  simp only [Nat.sub_self, List.getD_cons_zero]
  congr 1
  apply Finset.sum_congr rfl
  intro i _
  by_cases h : i + 1 ≤ n
  · rw [if_pos h, if_pos h, lrlist_getD _ _ _ n _ (by omega)]
  · rw [if_neg h, if_neg h]

/-- Zero extension of a time series to negative indices. -/
def zext (f : ℕ → ℝ) (n : ℤ) : ℝ := if 0 ≤ n then f n.toNat else 0

theorem zext_natCast (f : ℕ → ℝ) (m : ℕ) : zext f (m : ℤ) = f m := by
  simp [zext]

theorem zext_neg (f : ℕ → ℝ) (n : ℤ) (h : n < 0) : zext f n = 0 := by
  unfold zext
  rw [if_neg (by omega)]

theorem zext_natCast_sub (f : ℕ → ℝ) (n j : ℕ) :
    zext f ((n : ℤ) - (j : ℤ)) = if j ≤ n then f (n - j) else 0 := by
  by_cases h : j ≤ n
  · rw [if_pos h]
    unfold zext
    rw [if_pos (by omega)]
    congr 1
    omega
  · rw [if_neg h, zext_neg _ _ (by omega)]

theorem zext_lval (drive a : ℕ → ℝ) (na : ℕ) (n : ℤ) :
    zext (lval drive a na) n
      = zext drive n - ∑ i ∈ Finset.range na,
          a i * zext (lval drive a na) (n - ((i : ℤ) + 1)) := by
  rcases lt_or_le n 0 with h | h
  · rw [zext_neg _ _ h, zext_neg _ _ h]
    have : ∀ i ∈ Finset.range na, a i * zext (lval drive a na) (n - ((i:ℤ)+1)) = 0 := by
      intro i _
      rw [zext_neg _ _ (by omega)]
      ring
    rw [Finset.sum_congr rfl this]
    simp
  · obtain ⟨m, rfl⟩ := Int.eq_ofNat_of_zero_le h
    rw [zext_natCast, zext_natCast, lval_eq]
    congr 1
    apply Finset.sum_congr rfl
    intro i _
    congr 1
    have : (m : ℤ) - ((i:ℤ)+1) = (m : ℤ) - ((i+1 : ℕ) : ℤ) := by push_cast; ring
    rw [this, zext_natCast_sub]

/-- The transposed-direct-form output sequence applied to the
pole-accumulator history `w`: `y n = Σ_{j<nb} b j · w (n−j)` with zero
extension for negative time. -/
def yTDF (bc : ℕ → ℝ) (nb : ℕ) (w : ℕ → ℝ) (n : ℤ) : ℝ :=
  ∑ j ∈ Finset.range nb, bc j * zext w (n - (j : ℤ))

theorem yTDF_neg (bc : ℕ → ℝ) (nb : ℕ) (w : ℕ → ℝ) (n : ℤ) (h : n < 0) :
    yTDF bc nb w n = 0 := by
  unfold yTDF
  have : ∀ j ∈ Finset.range nb, bc j * zext w (n - (j:ℤ)) = 0 := by
    intro j _
    rw [zext_neg _ _ (by omega)]
    ring
  rw [Finset.sum_congr rfl this]
  simp

/-- The algebraic heart of Claim C1: the direct-form-II output satisfies
the reference rational difference equation. -/
theorem yTDF_identity (bc : ℕ → ℝ) (nb : ℕ) (drive a : ℕ → ℝ) (na : ℕ) (n : ℤ) :
    yTDF bc nb (lval drive a na) n
      = (∑ j ∈ Finset.range nb, bc j * zext drive (n - (j : ℤ)))
        - ∑ i ∈ Finset.range na, a i * yTDF bc nb (lval drive a na) (n - ((i:ℤ)+1)) := by
  have key : ∑ i ∈ Finset.range na, a i * yTDF bc nb (lval drive a na) (n - ((i:ℤ)+1))
      = ∑ j ∈ Finset.range nb,
          bc j * (zext drive (n - (j:ℤ)) - zext (lval drive a na) (n - (j:ℤ))) := by
    unfold yTDF
    calc ∑ i ∈ Finset.range na, a i * ∑ j ∈ Finset.range nb,
            bc j * zext (lval drive a na) (n - ((i:ℤ)+1) - (j:ℤ))
        = ∑ i ∈ Finset.range na, ∑ j ∈ Finset.range nb,
            bc j * (a i * zext (lval drive a na) ((n - (j:ℤ)) - ((i:ℤ)+1))) := by
          apply Finset.sum_congr rfl
          intro i _
          rw [Finset.mul_sum]
          apply Finset.sum_congr rfl
          intro j _
          have : n - ((i:ℤ)+1) - (j:ℤ) = (n - (j:ℤ)) - ((i:ℤ)+1) := by ring
          rw [this]
          ring
      _ = ∑ j ∈ Finset.range nb, ∑ i ∈ Finset.range na,
            bc j * (a i * zext (lval drive a na) ((n - (j:ℤ)) - ((i:ℤ)+1))) :=
          Finset.sum_comm
      _ = ∑ j ∈ Finset.range nb,
            bc j * (zext drive (n - (j:ℤ)) - zext (lval drive a na) (n - (j:ℤ))) := by
          apply Finset.sum_congr rfl
          intro j _
          rw [← Finset.mul_sum]
          congr 1
          have := zext_lval drive a na (n - (j:ℤ))
          -- rearrange: Σ a i * zext lval ((n-j) - (i+1)) = zext drive (n-j) - zext lval (n-j)
          linarith [this]
  rw [key, ← Finset.sum_sub_distrib]
  unfold yTDF
  apply Finset.sum_congr rfl
  intro j _
  ring

/-- The reference difference equation from the header comment of
iirfilter.c (lines 7-10):
`y(n) = b(0)x(n) + ... + b(nb)x(n-nb) − a(1)y(n-1) − ... − a(na)y(n-na)`
with zero initial conditions; `bc j` is `b(j)` and `ac i` is `a(i+1)`. -/
def refY (bc : ℕ → ℝ) (nb : ℕ) (ac : ℕ → ℝ) (na : ℕ) (x : ℕ → ℝ) (n : ℕ) : ℝ :=
  lval (fun m => ∑ j ∈ Finset.range nb, bc j * (if j ≤ m then x (m - j) else 0)) ac na n

theorem refY_eq (bc : ℕ → ℝ) (nb : ℕ) (ac : ℕ → ℝ) (na : ℕ) (x : ℕ → ℝ) (n : ℕ) :
    refY bc nb ac na x n
      = (∑ j ∈ Finset.range nb, bc j * (if j ≤ n then x (n - j) else 0))
        - ∑ i ∈ Finset.range na, ac i * (if i + 1 ≤ n then refY bc nb ac na x (n - (i+1)) else 0) :=
  lval_eq _ _ _ _

theorem yTDF_eq_refY (bc : ℕ → ℝ) (nb : ℕ) (ac : ℕ → ℝ) (na : ℕ) (x : ℕ → ℝ) :
    ∀ n : ℕ, yTDF bc nb (lval x ac na) (n : ℤ) = refY bc nb ac na x n := by
  intro n
  induction n using Nat.strong_induction_on with
  | _ n ih =>
      rw [yTDF_identity, refY_eq]
      congr 1
      · apply Finset.sum_congr rfl
        intro j _
        congr 1
        exact zext_natCast_sub x n j
      · apply Finset.sum_congr rfl
        intro i _
        congr 1
        by_cases h : i + 1 ≤ n
        · rw [if_pos h]
          have harg : (n : ℤ) - ((i:ℤ)+1) = ((n - (i+1) : ℕ) : ℤ) := by push_cast; omega
          rw [harg, ih _ (by omega)]
        · rw [if_neg h, yTDF_neg _ _ _ _ (by omega)]

/-- The filter state after `ifilter` initialization followed by `afilter`
processing of the first `k` input samples: the delay line holds the
pole-accumulator history `lrlist`. -/
def stateAt (numb numa : ℕ) (coeffs : ℕ → ℝ) (x : ℕ → ℝ) (k : ℕ) : FILTER :=
  ⟨numb, numa, coeffs, insertAll (initDelay (max (numb - 1) numa))
    (lrlist x (fun i => coeffs (numb + i)) numa k)⟩

theorem sum_ite_range_le (m n : ℕ) (h : m ≤ n) (f : ℕ → ℝ) :
    ∑ i ∈ Finset.range n, (if i < m then f i else 0) = ∑ i ∈ Finset.range m, f i := by
  have h1 : ∑ i ∈ Finset.range m, (if i < m then f i else 0)
      = ∑ i ∈ Finset.range n, (if i < m then f i else 0) :=
    Finset.sum_subset (Finset.range_subset.mpr h)
      (fun x _ hx => if_neg (by simpa using hx))
  rw [← h1]
  exact Finset.sum_congr rfl (fun i hi => if_pos (by simpa using hi))

theorem readFilter_stateAt (numb numa : ℕ) (coeffs : ℕ → ℝ) (x : ℕ → ℝ) (k i : ℕ)
    (hi : i < max (numb - 1) numa) :
    readFilter (stateAt numb numa coeffs x k).dline ((i : ℤ) + 1)
      = if i + 1 ≤ k then lval x (fun j => coeffs (numb + j)) numa (k - (i+1)) else 0 := by
  have hr := (insertAll_invariant (max (numb - 1) numa)
    (lrlist x (fun j => coeffs (numb + j)) numa k)).2 ((i:ℤ)+1) (by omega) (by push_cast; omega)
  rw [show (stateAt numb numa coeffs x k).dline
      = insertAll (initDelay (max (numb-1) numa)) (lrlist x (fun j => coeffs (numb+j)) numa k)
      from rfl]
  rw [hr, lrlist_length]
  by_cases h : i + 1 ≤ k
  · rw [if_pos (by push_cast; omega), if_pos h]
    have htn : ((i:ℤ)+1).toNat = i + 1 := by omega
    rw [htn, lrlist_getD _ _ _ k _ (by omega)]
  · rw [if_neg (by push_cast; omega), if_neg h]

theorem poleAcc_stateAt (numb numa : ℕ) (coeffs : ℕ → ℝ) (x : ℕ → ℝ) (k : ℕ) :
    poleAcc (stateAt numb numa coeffs x k) (x k)
      = lval x (fun i => coeffs (numb + i)) numa k := by
  unfold poleAcc
  rw [show (stateAt numb numa coeffs x k).ndelay = max (numb - 1) numa from rfl,
    show (stateAt numb numa coeffs x k).numa = numa from rfl]
  have hsum : ∑ i ∈ Finset.range (max (numb - 1) numa),
      (if i < numa then -((stateAt numb numa coeffs x k).acoef i)
        * readFilter (stateAt numb numa coeffs x k).dline ((i : ℤ) + 1) else 0)
      = ∑ i ∈ Finset.range numa, -((stateAt numb numa coeffs x k).acoef i)
        * readFilter (stateAt numb numa coeffs x k).dline ((i : ℤ) + 1) :=
    sum_ite_range_le numa _ (le_max_right _ _) _
  rw [hsum]
  have hterm : ∀ i ∈ Finset.range numa,
      -((stateAt numb numa coeffs x k).acoef i)
        * readFilter (stateAt numb numa coeffs x k).dline ((i : ℤ) + 1)
      = -(coeffs (numb + i)
          * (if i + 1 ≤ k then lval x (fun j => coeffs (numb + j)) numa (k - (i+1)) else 0)) := by
    intro i hi
    rw [readFilter_stateAt numb numa coeffs x k i (lt_of_lt_of_le (Finset.mem_range.mp hi) (le_max_right _ _))]
    rw [show (stateAt numb numa coeffs x k).acoef i = coeffs (numb + i) from rfl]
    ring
  rw [Finset.sum_congr rfl hterm, Finset.sum_neg_distrib, ← sub_eq_add_neg]
  exact (lval_eq _ _ _ _).symm

theorem zeroAcc_stateAt (numb numa : ℕ) (coeffs : ℕ → ℝ) (x : ℕ → ℝ) (k : ℕ) :
    zeroAcc (stateAt numb numa coeffs x k)
      = ∑ i ∈ Finset.range (numb - 1),
          coeffs (1 + i) * (if i + 1 ≤ k then lval x (fun j => coeffs (numb + j)) numa (k - (i+1)) else 0) := by
  unfold zeroAcc
  rw [show (stateAt numb numa coeffs x k).ndelay = max (numb - 1) numa from rfl,
    show (stateAt numb numa coeffs x k).numb = numb from rfl]
  have hsum : ∑ i ∈ Finset.range (max (numb - 1) numa),
      (if i < numb - 1 then ((stateAt numb numa coeffs x k).bcoef i)
        * readFilter (stateAt numb numa coeffs x k).dline ((i : ℤ) + 1) else 0)
      = ∑ i ∈ Finset.range (numb - 1), ((stateAt numb numa coeffs x k).bcoef i)
        * readFilter (stateAt numb numa coeffs x k).dline ((i : ℤ) + 1) :=
    sum_ite_range_le (numb - 1) _ (le_max_left _ _) _
  rw [hsum]
  apply Finset.sum_congr rfl
  intro i hi
  rw [readFilter_stateAt numb numa coeffs x k i (lt_of_lt_of_le (Finset.mem_range.mp hi) (le_max_left _ _))]
  rw [show (stateAt numb numa coeffs x k).bcoef i = coeffs (1 + i) from rfl]

/-- The output sequence of `afilter`: `b0` times the pole accumulator plus
the zero accumulator, both over the stored pole history. -/
def youtSeq (numb numa : ℕ) (coeffs : ℕ → ℝ) (x : ℕ → ℝ) (n : ℕ) : ℝ :=
  coeffs 0 * lval x (fun i => coeffs (numb + i)) numa n
    + ∑ i ∈ Finset.range (numb - 1),
        coeffs (1 + i) * (if i + 1 ≤ n then lval x (fun j => coeffs (numb + j)) numa (n - (i+1)) else 0)

theorem afilterStep_stateAt (numb numa : ℕ) (coeffs : ℕ → ℝ) (x : ℕ → ℝ) (k : ℕ) :
    afilterStep (stateAt numb numa coeffs x k) (x k)
      = (youtSeq numb numa coeffs x k, stateAt numb numa coeffs x (k+1)) := by
  unfold afilterStep
  rw [poleAcc_stateAt, zeroAcc_stateAt]
  congr 1
  show FILTER.mk numb numa coeffs
      (insertFilter (insertAll (initDelay (max (numb - 1) numa))
        (lrlist x (fun i => coeffs (numb + i)) numa k))
        (lval x (fun i => coeffs (numb + i)) numa k))
    = stateAt numb numa coeffs x (k+1)
  unfold stateAt
  congr 1
  rw [lrlist_succ_lval, insertAll_append]

theorem afilter_stateAt (numb numa : ℕ) (coeffs : ℕ → ℝ) (x : ℕ → ℝ) :
    ∀ (m k : ℕ),
      (afilter (stateAt numb numa coeffs x k) ((List.range' k m).map x)).1
        = (List.range' k m).map (youtSeq numb numa coeffs x) := by
  intro m
  induction m with
  | zero => intro k; rfl
  | succ m ih =>
      intro k
      rw [List.range'_succ]
      simp only [List.map_cons, afilter]
      rw [afilterStep_stateAt]
      simp only
      rw [ih (k+1)]

theorem youtSeq_eq_refY (numb numa : ℕ) (coeffs : ℕ → ℝ) (x : ℕ → ℝ)
    (hb : 1 ≤ numb) (n : ℕ) :
    youtSeq numb numa coeffs x n
      = refY coeffs numb (fun i => coeffs (numb + i)) numa x n := by
  rw [← yTDF_eq_refY]
  unfold yTDF youtSeq
  obtain ⟨nb', rfl⟩ : ∃ m, numb = m + 1 := ⟨numb - 1, by omega⟩
  rw [Finset.sum_range_succ']
  simp only [Nat.add_sub_cancel]
  rw [add_comm]
  congr 1
  · apply Finset.sum_congr rfl
    intro i _
    rw [zext_natCast_sub, Nat.add_comm 1 i]

theorem self_eq_map_range_getD (l : List ℝ) :
    (List.range l.length).map (fun m => l.getD m 0) = l := by
  apply List.ext_getElem (by simp)
  intro n h1 h2
  rw [List.getElem_map, List.getElem_range, List.getD_eq_getElem l 0 h2]

/-- Claim C1 (functional correctness of `afilter`): for every successfully
initialized filter (`1 ≤ numb ≤ 51`, `numa ≤ 50`) and every input block,
each output sample equals `b0 * poleAccumulator + zeroAccumulator`, where
the pole accumulator sequence `lval` starts at the input sample and
subtracts `Σ_i a i ·` (the pole output stored `i+1` steps ago), the zero
accumulator sums `b (i+1) ·` the same history (this is `youtSeq`), and this
equals the reference difference equation `refY`:
`y(n) = b(0)x(n) + ... + b(nb)x(n-nb) − a(1)y(n-1) − ... − a(na)y(n-na)`. -/
theorem C1_afilter_difference_equation
    (numb numa : ℕ) (coeffs : ℕ → ℝ)
    (hb1 : 1 ≤ numb) (hb2 : numb ≤ 51) (ha : numa ≤ 50)
    (ins : List ℝ) (x : ℕ → ℝ) (hx : x = fun m => ins.getD m 0)
    (n : ℕ) (hn : n < ins.length) :
    (afilter ⟨numb, numa, coeffs, initDelay (max (numb - 1) numa)⟩ ins).1.getD n 0
        = youtSeq numb numa coeffs x n
      ∧ (afilter ⟨numb, numa, coeffs, initDelay (max (numb - 1) numa)⟩ ins).1.getD n 0
        = refY coeffs numb (fun i => coeffs (numb + i)) numa x n := by
  have hrepr : (List.range' 0 ins.length).map x = ins := by
    rw [← List.range_eq_range', hx]
    exact self_eq_map_range_getD ins
  have hout := afilter_stateAt numb numa coeffs x ins.length 0
  rw [hrepr] at hout
  have hstate : (⟨numb, numa, coeffs, initDelay (max (numb - 1) numa)⟩ : FILTER)
      = stateAt numb numa coeffs x 0 := rfl
  have hval : (afilter ⟨numb, numa, coeffs, initDelay (max (numb - 1) numa)⟩ ins).1.getD n 0
      = youtSeq numb numa coeffs x n := by
    rw [hstate, hout]
    rw [List.getD_eq_getElem _ _ (by simpa using hn)]
    rw [List.getElem_map]
    congr 1
    rw [List.getElem_range']
    simp
  exact ⟨hval, hval.trans (youtSeq_eq_refY numb numa coeffs x hb1 n)⟩

theorem C1_witness :
    (1 ≤ 1 ∧ 1 ≤ 51 ∧ (1:ℕ) ≤ 50 ∧ 0 < ([(1:ℝ), 0]).length) ∧
    ((afilter ⟨1, 1, fun _ => (1:ℝ), initDelay (max (1 - 1) 1)⟩ [1, 0]).1.getD 0 0
        = youtSeq 1 1 (fun _ => 1) (fun m => [(1:ℝ), 0].getD m 0) 0
      ∧ (afilter ⟨1, 1, fun _ => (1:ℝ), initDelay (max (1 - 1) 1)⟩ [1, 0]).1.getD 0 0
        = refY (fun _ => 1) 1 (fun i => (1:ℝ)) 1 (fun m => [(1:ℝ), 0].getD m 0) 0) :=
  ⟨by norm_num,
   C1_afilter_difference_equation 1 1 (fun _ => 1) (by norm_num) (by norm_num) (by norm_num)
     [1, 0] _ rfl 0 (by norm_num)⟩

/-- Claim C2 (delay-line invariants): reading `i` samples ago computes
`cursor − i` with a single forward or backward wrap by `ndelay`, which
equals the modular index `(cursor − i) mod ndelay`; the value read is the
one inserted exactly `i` insertions earlier (zero if fewer than `i`
insertions have occurred since construction); and after every insertion the
cursor points at the oldest live slot of the buffer (the slot holding the
value inserted `ndelay` insertions ago, or 0 if not yet written). -/
theorem C2_delay_line_oldest_first (n : ℕ) (vs : List ℝ) (i : ℤ)
    (h1 : 1 ≤ i) (h2 : i ≤ n) :
    (∀ c : ℤ, 0 ≤ c → c < n → readIdx c i n = (c - i) % n)
    ∧ readFilter (insertAll (initDelay n) vs) i
        = (if i ≤ vs.length then vs.getD (vs.length - i.toNat) 0 else 0)
    ∧ ((insertAll (initDelay n) vs).buf.getD (insertAll (initDelay n) vs).cursor 0
        = if (n : ℤ) ≤ vs.length then vs.getD (vs.length - n) 0 else 0) := by
  obtain ⟨hcur, hread⟩ := insertAll_invariant n vs
  have hn : 1 ≤ n := by
    by_contra h
    have : n = 0 := by omega
    subst this
    simp at h2
    omega
  refine ⟨fun c hc0 hc => readIdx_eq_emod c i n hc0 hc h1 h2, hread i h1 h2, ?_⟩
  have hrn := hread (n : ℤ) (by exact_mod_cast hn) (le_refl _)
  have hlen : (insertAll (initDelay n) vs).buf.length = n := by
    rw [insertAll_length]; simp [initDelay]
  unfold readFilter at hrn
  rw [hlen, hcur] at hrn
  have hclt : vs.length % n < n := Nat.mod_lt _ (by omega)
  rw [readIdx_eq_emod _ _ _ (by positivity) (by exact_mod_cast hclt)
    (by exact_mod_cast hn) (le_refl _)] at hrn
  have hemod : ((vs.length % n : ℕ) : ℤ) - (n : ℤ) < 0 := by
    have := hclt; omega
  have hmodeq : (((vs.length % n : ℕ) : ℤ) - (n : ℤ)) % (n : ℤ) = ((vs.length % n : ℕ) : ℤ) := by
    have hstep : (((vs.length % n : ℕ) : ℤ) - (n : ℤ)) % (n : ℤ)
        = (((vs.length % n : ℕ) : ℤ) - (n : ℤ) + n) % (n : ℤ) := (Int.add_emod_self).symm
    rw [hstep]
    have harg : ((vs.length % n : ℕ) : ℤ) - (n : ℤ) + n = ((vs.length % n : ℕ) : ℤ) := by ring
    rw [harg, Int.emod_eq_of_lt (by positivity) (by exact_mod_cast hclt)]
  rw [hmodeq] at hrn
  rw [hcur]
  have htn : (((vs.length % n : ℕ) : ℤ)).toNat = vs.length % n := by omega
  rw [htn] at hrn
  have htn2 : ((n : ℕ) : ℤ).toNat = n := by omega
  rw [htn2] at hrn
  exact hrn

theorem C2_witness :
    readFilter (insertAll (initDelay 2) [5, 7]) 1
      = (if (1:ℤ) ≤ (([(5:ℝ), 7]).length : ℤ)
          then ([(5:ℝ), 7]).getD (([(5:ℝ), 7]).length - (1:ℤ).toNat) 0 else 0) :=
  (C2_delay_line_oldest_first 2 [5, 7] 1 (by norm_num) (by norm_num)).2.1

/-- Modelled from the spec: `MAXZEROS` comes from `iirfilter.h`, which is not
among the sources; the spec (§3, §6) fixes the numerator-length bound to
`MAXZEROS + 1 = 51`. -/
def MAXZEROS : ℤ := 50

/-- Modelled from the spec: `MAXPOLES` comes from `iirfilter.h`, which is not
among the sources; the spec (§3, §6) fixes the denominator-length bound to
`MAXPOLES = 50`. -/
def MAXPOLES : ℤ := 50

/-- The bounds check shared by `ifilter` (iirfilter.c lines 81-85) and
`izfilter` (lines 117-121):
`numb < 1 || numb > MAXZEROS+1 || numa < 0 || numa > MAXPOLES`. -/
def filterBoundsBad (numb numa : ℤ) : Prop :=
  numb < 1 ∨ MAXZEROS + 1 < numb ∨ numa < 0 ∨ MAXPOLES < numa

instance (numb numa : ℤ) : Decidable (filterBoundsBad numb numa) := by
  unfold filterBoundsBad MAXZEROS MAXPOLES
  infer_instance

/-- `ifilter` (iirfilter.c lines 72-95): the bounds check precedes the
delay-line allocation, so a failure (`none`, the C `return 0`) carries no
partially constructed state; on success the delay line has
`ndelay = MAX(numb-1, numa)` zeroed slots and the cursor at its start. -/
def ifilter (numb numa : ℤ) (coeffs : ℕ → ℝ) : Option FILTER :=
  if filterBoundsBad numb numa then none
  else some ⟨numb.toNat, numa.toNat, coeffs, initDelay (max (numb - 1) numa).toNat⟩

/-- `fcomplex` (from Numerical Recipes, used throughout iirfilter.c):
a real/imaginary pair. -/
structure Fcomplex where
  r : ℝ
  i : ℝ

/-- `fpolar` (iirfilter.c line 50): a magnitude/phase pair. -/
structure Fpolar where
  mag : ℝ
  ph : ℝ

def Cadd (a b : Fcomplex) : Fcomplex := ⟨a.r + b.r, a.i + b.i⟩

def Csub (a b : Fcomplex) : Fcomplex := ⟨a.r - b.r, a.i - b.i⟩

def Cmul (a b : Fcomplex) : Fcomplex := ⟨a.r * b.r - a.i * b.i, a.i * b.r + a.r * b.i⟩

def RCmul (x : ℝ) (a : Fcomplex) : Fcomplex := ⟨x * a.r, x * a.i⟩

/-- `Cdiv` (iirfilter.c lines 683-700): the two-branch stable complex
division. -/
def Cdiv (a b : Fcomplex) : Fcomplex :=
  if |b.i| ≤ |b.r| then
    ⟨(a.r + (b.i / b.r) * a.i) / (b.r + (b.i / b.r) * b.i),
     (a.i - (b.i / b.r) * a.r) / (b.r + (b.i / b.r) * b.i)⟩
  else
    ⟨(a.r * (b.r / b.i) + a.i) / (b.i + (b.r / b.i) * b.r),
     (a.i * (b.r / b.i) - a.r) / (b.i + (b.r / b.i) * b.r)⟩

/-- `Cabs` (iirfilter.c lines 702-721): magnitude via the scaled hypotenuse
to avoid overflow. -/
def Cabs (z : Fcomplex) : ℝ :=
  if |z.r| = 0 then |z.i|
  else if |z.i| = 0 then |z.r|
  else if |z.i| < |z.r| then |z.r| * Real.sqrt (1 + (|z.i| / |z.r|) * (|z.i| / |z.r|))
  else |z.i| * Real.sqrt (1 + (|z.r| / |z.i|) * (|z.r| / |z.i|))

/-- `Csqrt` (iirfilter.c lines 723-753): the standard stable two-branch
complex square root. -/
def Csqrt (z : Fcomplex) : Fcomplex :=
  if z.r = 0 ∧ z.i = 0 then ⟨0, 0⟩
  else
    let x := |z.r|
    let y := |z.i|
    let w := if y ≤ x then Real.sqrt x * Real.sqrt (0.5 * (1 + Real.sqrt (1 + (y/x)*(y/x))))
             else Real.sqrt y * Real.sqrt (0.5 * ((x/y) + Real.sqrt (1 + (x/y)*(x/y))))
    if 0 ≤ z.r then ⟨w, z.i / (2*w)⟩
    else
      ⟨z.i / (2 * (if 0 ≤ z.i then w else -w)), if 0 ≤ z.i then w else -w⟩

/-- `EPSS` of `laguer` (iirfilter.c line 540). -/
def EPSS : ℝ := 1e-7

/-- `MAXIT = MT*MR = 80` of `laguer` (iirfilter.c line 543). -/
def lagMAXIT : ℕ := 80

/-- The `frac` fractional-step table of `laguer` (line 553). -/
def lagFrac : List ℝ := [0.0, 0.5, 0.25, 0.75, 0.13, 0.38, 0.62, 0.88, 1.0]

/-- One step of the Horner-style inner loop of `laguer` (iirfilter.c
lines 561-566): `f = x*f + d; d = x*d + b; b = x*b + a[j];
err = Cabs(b) + abx*err`.  State is `(b, d, f, err)`. -/
def lagAccum (x : Fcomplex) (abx : ℝ) (st : Fcomplex × Fcomplex × Fcomplex × ℝ)
    (c : Fcomplex) : Fcomplex × Fcomplex × Fcomplex × ℝ :=
  (Cadd (Cmul x st.1) c,
   Cadd (Cmul x st.2.1) st.1,
   Cadd (Cmul x st.2.2.1) st.2.1,
   Cabs (Cadd (Cmul x st.1) c) + abx * st.2.2.2)

/-- The full inner loop (lines 557-566): starts with `b = a[m]`,
`d = f = 0`, `err = Cabs(b)` and processes `a[m-1] ... a[0]`. -/
def lagEval (a : List Fcomplex) (m : ℕ) (x : Fcomplex) :
    Fcomplex × Fcomplex × Fcomplex × ℝ :=
  ((a.take m).reverse).foldl (lagAccum x (Cabs x))
    (a.getD m ⟨0,0⟩, ⟨0,0⟩, ⟨0,0⟩, Cabs (a.getD m ⟨0,0⟩))

/-- One iteration of `laguer` (iirfilter.c lines 555-585): `Sum.inl root`
when a stopping condition fires (negligible polynomial value, or the step
`x1` coincides with `x`), otherwise `Sum.inr` of the next iterate (the
plain Laguerre step except every `MT`-th iteration, which takes a
fractional step from the `frac` table; a vanishing derivative triggers the
random-direction step `exp(log(1+abx)) * (cos iter, sin iter)`). -/
def laguerStep (a : List Fcomplex) (m : ℕ) (x : Fcomplex) (iter : ℕ) :
    Fcomplex ⊕ Fcomplex :=
  let abx := Cabs x
  let e := lagEval a m x
  let b := e.1
  let d := e.2.1
  let f := e.2.2.1
  let err := EPSS * e.2.2.2
  if Cabs b ≤ err then Sum.inl x
  else
    let g := Cdiv d b
    let g2 := Cmul g g
    let h := Csub g2 (RCmul 2 (Cdiv f b))
    let sq := Csqrt (RCmul ((m : ℝ) - 1) (Csub (RCmul (m : ℝ) h) g2))
    let gp0 := Cadd g sq
    let gm := Csub g sq
    let abp := Cabs gp0
    let abm := Cabs gm
    let gp := if abp < abm then gm else gp0
    let dx := if 0 < max abp abm then Cdiv ⟨(m : ℝ), 0⟩ gp
      else RCmul (Real.exp (Real.log (1 + abx))) ⟨Real.cos iter, Real.sin iter⟩
    let x1 := Csub x dx
    if x.r = x1.r ∧ x.i = x1.i then Sum.inl x
    else if iter % 10 ≠ 0 then Sum.inr x1
    else Sum.inr (Csub x (RCmul (lagFrac.getD (iter / 10) 0) dx))

/-- The bounded iteration of `laguer`: at most `fuel` further iterations
starting at iteration number `iter`.  The second component is `true`
exactly when the budget was exhausted without a stopping condition — the
case in which the C code prints "too many iterations in laguer" and
returns with the last iterate. -/
def laguerGo (a : List Fcomplex) (m : ℕ) : ℕ → ℕ → Fcomplex → Fcomplex × Bool
  | _, 0, x => (x, true)
  | iter, fuel+1, x =>
    match laguerStep a m x iter with
    | Sum.inl root => (root, false)
    | Sum.inr x1 => laguerGo a m (iter+1) fuel x1

/-- `laguer` (iirfilter.c lines 548-589): iterations numbered from 1, with
budget `MAXIT = 80`. -/
def laguer (a : List Fcomplex) (m : ℕ) (x : Fcomplex) : Fcomplex × Bool :=
  laguerGo a m 1 lagMAXIT x

/-- The candidate-root trajectory of `laguer`: the iterate reached after
`k` non-stopping steps from `x` at iteration number `iter` (frozen at the
stopping point if one occurs earlier). -/
def lagIter (a : List Fcomplex) (m : ℕ) : ℕ → Fcomplex → ℕ → Fcomplex
  | _, x, 0 => x
  | iter, x, k+1 =>
    lagIter a m (iter+1)
      (match laguerStep a m x iter with
       | Sum.inl _ => x
       | Sum.inr x1 => x1) k

/-- `EPS` of `zroots` (iirfilter.c line 602). -/
def zrEPS : ℝ := 2e-6

/-- One deflation pass of `zroots` (iirfilter.c lines 616-621): synthetic
division of `ad[0..j]` by the found root, producing `ad[0..j-1]`. -/
def zrootsDeflate (x : Fcomplex) (hi : Fcomplex) (rest : List Fcomplex) :
    List Fcomplex :=
  (rest.foldl (fun st c => (st.2 :: st.1, Cadd (Cmul x st.2) c)) ([], hi)).1

/-- The main loop of `zroots` (iirfilter.c lines 611-622): find a root of
the deflated polynomial of degree `j` from a zero start, clamp a tiny
imaginary part to zero, record it, deflate, repeat.  Returns
`[roots[1], ..., roots[m]]`. -/
def zrootsGo (ad : List Fcomplex) : ℕ → List Fcomplex
  | 0 => []
  | j+1 =>
    let x0 := (laguer ad (j+1) ⟨0,0⟩).1
    let x := if |x0.i| ≤ 2 * zrEPS * |x0.r| then (⟨x0.r, 0⟩ : Fcomplex) else x0
    zrootsGo (zrootsDeflate x (ad.getD (j+1) ⟨0,0⟩) ((ad.take (j+1)).reverse)) j ++ [x]

/-- The final insertion sort of `zroots` by ascending real part
(iirfilter.c lines 626-633); an element is inserted after all previously
sorted elements with real part `≤` its own, as the C scan does. -/
def zrootsSort (l : List Fcomplex) : List Fcomplex :=
  l.insertionSort (fun u v => u.r < v.r)

/-- `zroots` (iirfilter.c lines 605-634): deflation loop, then a polish
pass of every root against the undeflated polynomial, then the insertion
sort by real part. -/
def zroots (a : List Fcomplex) (m : ℕ) : List Fcomplex :=
  zrootsSort ((zrootsGo a m).map (fun root => (laguer a m root).1))

/-- `complex2polar` for one entry (iirfilter.c lines 401-409): magnitude by
`hypot`, phase by `atan2` (modelled by `Complex.arg`). -/
def complex2polar (z : Fcomplex) : Fpolar :=
  ⟨Real.sqrt (z.r * z.r + z.i * z.i), Complex.arg ⟨z.r, z.i⟩⟩

/-- `polar2complex` for one entry (iirfilter.c lines 411-419). -/
def polar2complex (p : Fpolar) : Fcomplex :=
  ⟨p.mag * Real.cos p.ph, p.mag * Real.sin p.ph⟩

/-- `sortRoots` (iirfilter.c lines 422-435): polar conversion, `qsort` into
decreasing magnitude order (modelled by a merge sort on the same
comparator; `qsort` leaves tie order unspecified), conversion back. -/
def sortRoots (l : List Fcomplex) : List Fcomplex :=
  (((l.map complex2polar).mergeSort (fun u v => decide (v.mag ≤ u.mag))).map polar2complex)

/-- `ZFILTER` (iirfilter.h, as used by iirfilter.c): `FILTER` plus the
auxiliary root storage. -/
structure ZFILTER where
  numb : ℕ
  numa : ℕ
  coeffs : ℕ → ℝ
  dline : DelayLine
  roots : List Fcomplex

/-- `izfilter` (iirfilter.c lines 105-148): the same bounds check as
`ifilter` (failing before any allocation), then delay-line allocation,
reversal of the denominator coefficients into the monic polynomial
`a[0..dim]` with `a[dim] = 1` and `a[i] = coeffs[numb + dim - i - 1]`,
root finding by `zroots`, and `sortRoots` into descending magnitude order.
It returns OK (`some`) on every path past the bounds check, whatever the
root solver did. -/
def izfilter (numb numa : ℤ) (coeffs : ℕ → ℝ) : Option ZFILTER :=
  if filterBoundsBad numb numa then none
  else
    some ⟨numb.toNat, numa.toNat, coeffs,
      initDelay (max (numb - 1) numa).toNat,
      sortRoots (zroots
        (((List.range numa.toNat).map
            (fun k => (⟨coeffs (numb.toNat + numa.toNat - k - 1), 0⟩ : Fcomplex)))
          ++ [⟨1, 0⟩])
        numa.toNat)⟩

/-- Claim C4 (error handling of construction): `ifilter` and `izfilter`
fail — returning the out-of-bounds error with no allocated state, which the
embedding renders as `none` — if and only if the numerator length is
outside [1, 51] or the denominator length is outside [0, 50]; the bounds
check precedes every allocation in both initializers. -/
theorem C4_construction_validation (numb numa : ℤ) (coeffs : ℕ → ℝ) :
    (ifilter numb numa coeffs = none
      ↔ ¬ (1 ≤ numb ∧ numb ≤ 51 ∧ 0 ≤ numa ∧ numa ≤ 50))
    ∧ (izfilter numb numa coeffs = none
      ↔ ¬ (1 ≤ numb ∧ numb ≤ 51 ∧ 0 ≤ numa ∧ numa ≤ 50)) := by
  have hiff : filterBoundsBad numb numa ↔ ¬ (1 ≤ numb ∧ numb ≤ 51 ∧ 0 ≤ numa ∧ numa ≤ 50) := by
    unfold filterBoundsBad MAXZEROS MAXPOLES
    omega
  constructor
  · unfold ifilter
    by_cases h : filterBoundsBad numb numa
    · rw [if_pos h]
      simpa using hiff.mp h
    · rw [if_neg h]
      simp only [reduceCtorEq, false_iff]
      intro hcon
      exact hcon (not_not.mp (fun hneg => h (hiff.mpr hneg)))
  · unfold izfilter
    by_cases h : filterBoundsBad numb numa
    · rw [if_pos h]
      simpa using hiff.mp h
    · rw [if_neg h]
      simp only [reduceCtorEq, false_iff]
      intro hcon
      exact hcon (not_not.mp (fun hneg => h (hiff.mpr hneg)))

theorem laguerGo_exhausted_iff (a : List Fcomplex) (m : ℕ) :
    ∀ (fuel iter : ℕ) (x : Fcomplex),
      (laguerGo a m iter fuel x).2 = true ↔
        ∀ k < fuel, (laguerStep a m (lagIter a m iter x k) (iter + k)).isRight = true := by
  intro fuel
  induction fuel with
  | zero =>
      intro iter x
      simp [laguerGo]
  | succ fuel ih =>
      intro iter x
      cases hstep : laguerStep a m x iter with
      | inl root =>
          simp only [laguerGo, hstep]
          constructor
          · intro h
            exact absurd h (by simp)
          · intro h
            have h0 := h 0 (by omega)
            rw [show lagIter a m iter x 0 = x from rfl, Nat.add_zero, hstep] at h0
            exact absurd h0 (by simp)
      | inr x1 =>
          simp only [laguerGo, hstep]
          rw [ih (iter+1) x1]
          constructor
          · intro h k hk
            cases k with
            | zero =>
                rw [show lagIter a m iter x 0 = x from rfl, Nat.add_zero, hstep]
                simp
            | succ k =>
                have hshift : lagIter a m iter x (k+1) = lagIter a m (iter+1) x1 k := by
                  show lagIter a m (iter+1)
                      (match laguerStep a m x iter with
                       | Sum.inl _ => x
                       | Sum.inr y => y) k = _
                  rw [hstep]
                rw [hshift, show iter + (k+1) = (iter+1) + k from by omega]
                exact h k (by omega)
          · intro h k hk
            have hk1 := h (k+1) (by omega)
            have hshift : lagIter a m iter x (k+1) = lagIter a m (iter+1) x1 k := by
              show lagIter a m (iter+1)
                  (match laguerStep a m x iter with
                   | Sum.inl _ => x
                   | Sum.inr y => y) k = _
              rw [hstep]
            rw [hshift, show iter + (k+1) = (iter+1) + k from by omega] at hk1
            exact hk1

/-- Claim C10 (root-solver failure semantics): the root solver's failure
report (the diagnostic printed by `laguer`, its only failure channel,
modelled by the `true` flag) is raised if and only if all `MAXIT = 80`
iterations pass without meeting a stopping condition — i.e. the budget is
exceeded without convergence; and for every in-bounds configuration the
`izfilter` initialization reports success (`some`), whatever the solver
did. -/
theorem C10_laguer_budget_izfilter_success
    (a : List Fcomplex) (m : ℕ) (x : Fcomplex)
    (numb numa : ℤ) (coeffs : ℕ → ℝ)
    (hok : 1 ≤ numb ∧ numb ≤ 51 ∧ 0 ≤ numa ∧ numa ≤ 50) :
    ((laguer a m x).2 = true ↔
      ∀ k < lagMAXIT, (laguerStep a m (lagIter a m 1 x k) (1 + k)).isRight = true)
    ∧ (izfilter numb numa coeffs).isSome = true := by
  constructor
  · exact laguerGo_exhausted_iff a m lagMAXIT 1 x
  · unfold izfilter
    rw [if_neg (by unfold filterBoundsBad MAXZEROS MAXPOLES; omega)]
    rfl

theorem C10_witness :
    ((1:ℤ) ≤ 1 ∧ (1:ℤ) ≤ 51 ∧ (0:ℤ) ≤ 0 ∧ (0:ℤ) ≤ 50) ∧
    (((laguer [⟨1,0⟩] 0 ⟨0,0⟩).2 = true ↔
      ∀ k < lagMAXIT,
        (laguerStep [⟨1,0⟩] 0 (lagIter [⟨1,0⟩] 0 1 ⟨0,0⟩ k) (1 + k)).isRight = true)
    ∧ (izfilter 1 0 (fun _ => 0)).isSome = true) :=
  ⟨by norm_num,
   C10_laguer_budget_izfilter_success [⟨1,0⟩] 0 ⟨0,0⟩ 1 0 (fun _ => 0) (by norm_num)⟩

/-- The `eps` underflow guard of the nudge routines (iirfilter.c lines 460
and 500): `.000001`. -/
def nudgeEps : ℝ := 0.000001

/-- The guarded per-pole update shared by both nudge routines: only poles
whose complex form has `|imag| > eps` are touched (iirfilter.c
lines 476-478, 485-487, 517-519, 525-527). -/
def nudgeMap (a : List Fpolar) (b : List Fcomplex) (f : Fpolar → Fpolar) : List Fpolar :=
  (a.zip b).map (fun q => if nudgeEps < |q.2.i| then f q.1 else q.1)

/-- The scan of `nudgeMags` for the first non-real pole (iirfilter.c
lines 469-471): first index with `|imag| > eps`, or `dim` when none exists
(the C code then reads `a[dim]`, one past the populated range; the value is
irrelevant since no pole is updated in that case — modelled by the `getD`
default). -/
def firstComplexIdx (b : List Fcomplex) : ℕ :=
  b.findIdx (fun z => decide (nudgeEps < |z.i|))

/-- `nudgeMags` (iirfilter.c lines 458-492): a factor in (0, 1] multiplies
every complex-pole magnitude by `1 + (1/a[i0].mag − 1)·fact` where `i0` is
the first non-real pole; a factor in [−1, 0) multiplies them by `fact + 1`;
anything else is a no-op. -/
def nudgeMags (a : List Fpolar) (b : List Fcomplex) (fact : ℝ) : List Fpolar :=
  if 0 < fact ∧ fact ≤ 1 then
    nudgeMap a b (fun p =>
      ⟨p.mag * (1 + (1 / (a.getD (firstComplexIdx b) ⟨0,0⟩).mag - 1) * fact), p.ph⟩)
  else if fact < 0 ∧ -1 ≤ fact then
    nudgeMap a b (fun p => ⟨p.mag * (fact + 1), p.ph⟩)
  else a

/-- `nudgePhases` (iirfilter.c lines 498-532): a factor in (0, 1] scales
every complex-pole phase by `1 + (1 − phmax/π)·fact` where `phmax` is the
largest phase found in the polar array (starting from 0); a factor in
[−1, 0) scales them by `fact + 1`; anything else is a no-op. -/
def nudgePhases (a : List Fpolar) (b : List Fcomplex) (fact : ℝ) : List Fpolar :=
  if 0 < fact ∧ fact ≤ 1 then
    nudgeMap a b (fun p =>
      ⟨p.mag, p.ph * (1 + (1 - (a.foldl (fun acc q => if acc < q.ph then q.ph else acc) 0) / Real.pi) * fact)⟩)
  else if fact < 0 ∧ -1 ≤ fact then
    nudgeMap a b (fun p => ⟨p.mag, p.ph * (fact + 1)⟩)
  else a

/-- Claim C7 (no-op ranges of the nudge routines): a factor of 0, or any
factor strictly outside [−1, 1], leaves the polar pole array exactly
unchanged, for both the magnitude nudge and the phase nudge. -/
theorem C7_nudge_noop (a : List Fpolar) (b : List Fcomplex) (fact : ℝ)
    (hout : fact = 0 ∨ 1 < |fact|) :
    nudgeMags a b fact = a ∧ nudgePhases a b fact = a := by
  have h1 : ¬ (0 < fact ∧ fact ≤ 1) := by
    rintro ⟨hp, hle⟩
    rcases hout with h | h
    · linarith
    · rcases lt_abs.mp h with h' | h' <;> linarith
  have h2 : ¬ (fact < 0 ∧ -1 ≤ fact) := by
    rintro ⟨hp, hle⟩
    rcases hout with h | h
    · linarith
    · rcases lt_abs.mp h with h' | h' <;> linarith
  constructor
  · unfold nudgeMags
    rw [if_neg h1, if_neg h2]
  · unfold nudgePhases
    rw [if_neg h1, if_neg h2]

theorem C7_witness :
    ((2:ℝ) = 0 ∨ 1 < |(2:ℝ)|) ∧
    (nudgeMags [⟨1, 0⟩] [⟨0, 1⟩] 2 = [⟨1, 0⟩]
      ∧ nudgePhases [⟨1, 0⟩] [⟨0, 1⟩] 2 = [⟨1, 0⟩]) :=
  ⟨Or.inr (by norm_num), C7_nudge_noop [⟨1, 0⟩] [⟨0, 1⟩] 2 (Or.inr (by norm_num))⟩

theorem nudgeMap_getD_real (a : List Fpolar) (b : List Fcomplex)
    (f : Fpolar → Fpolar) (j : ℕ) (hj : j < a.length) (hjb : j < b.length)
    (h : ¬ nudgeEps < |(b.getD j ⟨0,0⟩).i|) :
    (nudgeMap a b f).getD j ⟨0,0⟩ = a.getD j ⟨0,0⟩ := by
  unfold nudgeMap
  have hlen : j < ((a.zip b).map
      (fun q => if nudgeEps < |q.2.i| then f q.1 else q.1)).length := by
    simp only [List.length_map, List.length_zip]
    omega
  rw [List.getD_eq_getElem _ _ hlen, List.getElem_map, List.getElem_zip]
  rw [List.getD_eq_getElem b ⟨0,0⟩ hjb] at h
  rw [if_neg h, List.getD_eq_getElem a ⟨0,0⟩ hj]

/-- Claim C8 (frame property of the nudges): a real pole — one whose
complex form has `|imag| < 1e-6` — keeps exactly its prior magnitude and
phase under `nudgeMags` and `nudgePhases`, for every nudge factor; only
non-real poles are ever perturbed. -/
theorem C8_real_poles_unperturbed (a : List Fpolar) (b : List Fcomplex)
    (fact : ℝ) (j : ℕ) (hj : j < a.length) (hjb : j < b.length)
    (hreal : |(b.getD j ⟨0,0⟩).i| < nudgeEps) :
    (nudgeMags a b fact).getD j ⟨0,0⟩ = a.getD j ⟨0,0⟩
      ∧ (nudgePhases a b fact).getD j ⟨0,0⟩ = a.getD j ⟨0,0⟩ := by
  have hng : ¬ nudgeEps < |(b.getD j ⟨0,0⟩).i| := by linarith
  constructor
  · unfold nudgeMags
    split_ifs with hc1 hc2
    · exact nudgeMap_getD_real a b _ j hj hjb hng
    · exact nudgeMap_getD_real a b _ j hj hjb hng
    · rfl
  · unfold nudgePhases
    split_ifs with hc1 hc2
    · exact nudgeMap_getD_real a b _ j hj hjb hng
    · exact nudgeMap_getD_real a b _ j hj hjb hng
    · rfl

theorem C8_witness :
    (0 < ([⟨2, 3⟩] : List Fpolar).length ∧ 0 < ([⟨5, 0⟩] : List Fcomplex).length
      ∧ |(([⟨5, 0⟩] : List Fcomplex).getD 0 ⟨0,0⟩).i| < nudgeEps) ∧
    ((nudgeMags [⟨2, 3⟩] [⟨5, 0⟩] 0.5).getD 0 ⟨0,0⟩ = ([⟨2, 3⟩] : List Fpolar).getD 0 ⟨0,0⟩
      ∧ (nudgePhases [⟨2, 3⟩] [⟨5, 0⟩] 0.5).getD 0 ⟨0,0⟩ = ([⟨2, 3⟩] : List Fpolar).getD 0 ⟨0,0⟩) :=
  ⟨⟨by norm_num, by norm_num, by simp [List.getD]; norm_num [nudgeEps]⟩,
   C8_real_poles_unperturbed [⟨2, 3⟩] [⟨5, 0⟩] 0.5 0 (by norm_num) (by norm_num)
     (by simp [List.getD]; norm_num [nudgeEps])⟩

/-- The IEEE classification of the C `float diss_val` as the emission guard
of `Dissonance::process` (Dissonance.cpp lines 255-264) observes it:
finite with its real value, NaN, +Inf, or −Inf. -/
inductive FloatVal where
  | finite (x : ℝ)
  | nan
  | inf
  | neginf

/-- `!isnan(v) && !isinf(v)`. -/
def FloatVal.isFinite : FloatVal → Bool
  | FloatVal.finite _ => true
  | _ => false

/-- `log10f` on the classified value (C99 / IEEE semantics:
`log10(0) = −Inf`, `log10` of a negative is NaN, `log10(+Inf) = +Inf`,
NaN propagates). -/
def log10F : FloatVal → FloatVal
  | FloatVal.finite x =>
      if 0 < x then FloatVal.finite (Real.logb 10 x)
      else if x = 0 then FloatVal.neginf
      else FloatVal.nan
  | FloatVal.nan => FloatVal.nan
  | FloatVal.inf => FloatVal.inf
  | FloatVal.neginf => FloatVal.nan

/-- One output feature: the timestamp flag and the (possibly empty) value
list, as `Dissonance::process` builds it. -/
structure Feature where
  hasTimestamp : Bool
  values : List FloatVal

/-- The emission tail of `Dissonance::process` (Dissonance.cpp
lines 255-264): both streams push exactly one untimed feature; stream 0
carries the raw `diss_val` only if `!isnan(diss_val) && !isinf(diss_val)`,
and stream 1 carries `log10f(diss_val)` under the SAME guard on
`diss_val` — the finiteness of the logarithm itself is never tested. -/
def emitFeatures (d : FloatVal) : Feature × Feature :=
  (⟨false, if d.isFinite then [d] else []⟩,
   ⟨false, if d.isFinite then [log10F d] else []⟩)

/-- The Plomp-Levelt/Sethares pair term of `Dissonance::process`
(Dissonance.cpp lines 243-251) for partials `lo` (lower frequency) and
`hi`: `am · (c1·exp(b1·S·Fdif) + c2·exp(b2·S·Fdif))` with
`S = Dstar/(s1·lo.freq + s2)`, `Fdif = hi.freq − lo.freq`,
`am = hi.mag · lo.mag`, and `b1 = −3.51`, `b2 = −5.75`, `s1 = 0.0207`,
`s2 = 19.96`, `c1 = 5`, `c2 = −5`, `Dstar = 0.24`. -/
def dissPair (lo hi : ℝ × ℝ) : ℝ :=
  (hi.2 * lo.2) *
    (5.0 * Real.exp ((-3.51) * (0.24 / (0.0207 * lo.1 + 19.96)) * (hi.1 - lo.1))
      + (-5.0) * Real.exp ((-5.75) * (0.24 / (0.0207 * lo.1 + 19.96)) * (hi.1 - lo.1)))

/-- The dissonance double loop of `Dissonance::process` (lines 244-253):
`for i in [1, N)`, `for j in [0, N−i)`, accumulate the pair term of
partials `j` and `j+i`. -/
def dissValue (fm : List (ℝ × ℝ)) : ℝ :=
  ∑ i ∈ Finset.Ico 1 fm.length, ∑ j ∈ Finset.range (fm.length - i),
    dissPair (fm.getD j (0, 0)) (fm.getD (j+i) (0, 0))

/-- The claim's formulation of the same quantity: a sum over all index
pairs `u < v` of `mag_u · mag_v · (c1·exp(b1·S·Δf) + c2·exp(b2·S·Δf))`
with `Δf = f_v − f_u` and `S = Dstar/(s1·f_u + s2)` (`f_u` is the lower
frequency of the pair when the list is sorted by ascending frequency). -/
def dissPairsSpec (fm : List (ℝ × ℝ)) : ℝ :=
  ∑ p ∈ (Finset.range fm.length ×ˢ Finset.range fm.length).filter
      (fun p => p.1 < p.2),
    ((fm.getD p.1 (0, 0)).2 * (fm.getD p.2 (0, 0)).2) *
      (5.0 * Real.exp ((-3.51) * (0.24 / (0.0207 * (fm.getD p.1 (0, 0)).1 + 19.96))
            * ((fm.getD p.2 (0, 0)).1 - (fm.getD p.1 (0, 0)).1))
        + (-5.0) * Real.exp ((-5.75) * (0.24 / (0.0207 * (fm.getD p.1 (0, 0)).1 + 19.96))
            * ((fm.getD p.2 (0, 0)).1 - (fm.getD p.1 (0, 0)).1)))

/-- Claim C3 (dissonance summation): for every list of at most 20 selected
partials sorted by ascending frequency, the double loop of
`Dissonance::process` computes exactly the sum over all index pairs
`u < v` of the Sethares roughness term. -/
theorem C3_dissonance_pairwise_sum (fm : List (ℝ × ℝ))
    (hlen : fm.length ≤ 20)
    (hsort : List.Sorted (fun u v : ℝ × ℝ => u.1 ≤ v.1) fm) :
    dissValue fm = dissPairsSpec fm := by
  unfold dissValue dissPairsSpec
  rw [Finset.sum_sigma']
  apply Finset.sum_nbij' (fun p => (p.2, p.2 + p.1)) (fun q => ⟨q.2 - q.1, q.1⟩)
  · rintro ⟨pi, pj⟩ hp
    rw [Finset.mem_sigma, Finset.mem_Ico, Finset.mem_range] at hp
    rw [Finset.mem_filter, Finset.mem_product, Finset.mem_range, Finset.mem_range]
    dsimp only at hp ⊢
    refine ⟨⟨by omega, by omega⟩, by omega⟩
  · rintro ⟨qu, qv⟩ hq
    rw [Finset.mem_filter, Finset.mem_product, Finset.mem_range, Finset.mem_range] at hq
    rw [Finset.mem_sigma, Finset.mem_Ico, Finset.mem_range]
    dsimp only at hq ⊢
    refine ⟨⟨by omega, by omega⟩, by omega⟩
  · rintro ⟨pi, pj⟩ hp
    rw [Finset.mem_sigma, Finset.mem_Ico, Finset.mem_range] at hp
    dsimp only at hp ⊢
    have h : pj + pi - pj = pi := by omega
    rw [h]
  · rintro ⟨qu, qv⟩ hq
    rw [Finset.mem_filter, Finset.mem_product, Finset.mem_range, Finset.mem_range] at hq
    dsimp only at hq ⊢
    have h : qu + (qv - qu) = qv := by omega
    rw [h]
  · rintro ⟨pi, pj⟩ hp
    unfold dissPair
    dsimp only
    ring

theorem C3_witness :
    (([((440:ℝ), (1:ℝ)), (450, 1)]).length ≤ 20
      ∧ List.Sorted (fun u v : ℝ × ℝ => u.1 ≤ v.1) [((440:ℝ), (1:ℝ)), (450, 1)]) ∧
    dissValue [((440:ℝ), (1:ℝ)), (450, 1)] = dissPairsSpec [((440:ℝ), (1:ℝ)), (450, 1)] :=
  ⟨⟨by norm_num, by simp [List.sorted_cons]; norm_num⟩,
   C3_dissonance_pairwise_sum [((440:ℝ), (1:ℝ)), (450, 1)] (by norm_num)
     (by simp [List.sorted_cons]; norm_num)⟩

/-- Claim C5, amended: stream 0's raw scalar is emitted exactly when it is
finite, and every value stream 0 carries is finite; but stream 1's guard
also tests the RAW sum, not the logarithm — stream 1 carries
`log10f(diss_val)` whenever `diss_val` is finite, even when the logarithm
itself is non-finite (`−Inf` for a zero sum).  Both streams always push
their one (possibly empty) untimed feature instead of propagating an
error. -/
theorem C5_emission_guards (d : FloatVal) :
    ((emitFeatures d).1.values = if d.isFinite then [d] else [])
    ∧ ((emitFeatures d).2.values = if d.isFinite then [log10F d] else [])
    ∧ (∀ v ∈ (emitFeatures d).1.values, v.isFinite = true)
    ∧ (emitFeatures d).1.hasTimestamp = false
    ∧ (emitFeatures d).2.hasTimestamp = false := by
  refine ⟨rfl, rfl, ?_, rfl, rfl⟩
  intro v hv
  cases d with
  | finite x =>
      simp [emitFeatures, FloatVal.isFinite] at hv
      subst hv
      rfl
  | nan => simp [emitFeatures, FloatVal.isFinite] at hv
  | inf => simp [emitFeatures, FloatVal.isFinite] at hv
  | neginf => simp [emitFeatures, FloatVal.isFinite] at hv

/-- Bin frequencies of `Dissonance::process` (Dissonance.cpp
lines 176-182): `freq_i = i · sampleRate / blockSize`, bins
`i = 1 .. blockSize/2`. -/
def binFreqs (sr : ℝ) (bs : ℕ) : List ℝ :=
  (List.range' 1 (bs / 2)).map (fun i => ((i : ℝ) * sr) / (bs : ℝ))

/-- Bin magnitudes (lines 176-182): the Euclidean norm of the interleaved
complex bin (`buf` is channel 0 of `inputBuffers`) over `blockSize/2`. -/
def binMags (buf : ℕ → ℝ) (bs : ℕ) : List ℝ :=
  (List.range' 1 (bs / 2)).map (fun i =>
    Real.sqrt (buf (2*i) * buf (2*i) + buf (2*i+1) * buf (2*i+1)) / ((bs / 2 : ℕ) : ℝ))

/-- The magnitude first differences (lines 204-208): `diffs[0] = 0`,
`diffs[i] = mags[i] − mags[i−1]` for `i = 1 .. blockSize/2`.  At
`i = blockSize/2` the source reads `mags[blockSize/2]`, one entry past the
end of `mags`; the model renders that out-of-range read as 0. -/
def magDiffs (mags : List ℝ) : List ℝ :=
  0 :: (List.range' 1 mags.length).map (fun i => mags.getD i 0 - mags.getD (i-1) 0)

/-- The peak threshold `1e-9f` (line 211). -/
def peakThresh : ℝ := 1e-9

/-- Peak detection (lines 212-217): bin `i ∈ [1, blockSize/2]` is a peak
when the derivative at `i−1` exceeds the threshold and the derivative at
`i` falls below its negation (a rising-to-falling zero crossing). -/
def peakIdx (diffs : List ℝ) (n : ℕ) : List ℕ :=
  (List.range' 1 n).filter (fun i =>
    decide (peakThresh < diffs.getD (i-1) 0 ∧ diffs.getD i 0 < -peakThresh))

/-- The magnitude-descending order used for partial selection
(Dissonance.cpp lines 228-234): `std::sort(arg_idx.rbegin(), arg_idx.rend(),
IdxComparator)` over `(magnitude, bin)` pairs sorts into descending
magnitude; the unspecified tie order of the unstable sort is modelled as
ascending original bin index (what a stable reverse-iterator sort would
leave). -/
def byMagDesc (u v : ℝ × ℕ) : Bool :=
  decide (v.1 < u.1 ∨ (u.1 = v.1 ∧ u.2 ≤ v.2))

/-- The ascending-frequency comparator of the final sort (lines 22-23,
241). -/
def byFreq (u v : ℝ × ℝ) : Bool := decide (u.1 ≤ v.1)

/-- Partial selection of `Dissonance::process` (lines 228-241): pair every
detected peak with its magnitude, sort descending by magnitude, keep the
first `min(#peaks, 20)`, map each kept peak to its (frequency, magnitude),
and sort those by ascending frequency. -/
def selectPartials (freqs mags : List ℝ) (peaks : List ℕ) : List (ℝ × ℝ) :=
  ((((peaks.map (fun p => (mags.getD p 0, p))).mergeSort byMagDesc).take
      (min peaks.length 20)).map
    (fun q => (freqs.getD q.2 0, mags.getD q.2 0))).mergeSort byFreq

/-- `Dissonance::process` (Dissonance.cpp lines 162-265) reduced to the
computations that reach its output: bin magnitudes and frequencies,
magnitude derivative, peak detection, partial selection, the pairwise
dissonance sum, and emission.  The zero-phase smoothing pass
(lines 183-202) writes only into its own scratch buffers and never feeds
the peak detector or the dissonance sum, so it does not appear.  A block
with no detected peaks short-circuits to one untimed value 0 on both
streams (lines 219-226, a logged warning, not an error).  The computed
real dissonance sum enters the emission stage as a finite classified
value. -/
def processSpectrum (sr : ℝ) (bs : ℕ) (buf : ℕ → ℝ) : Feature × Feature :=
  if peakIdx (magDiffs (binMags buf bs)) (bs / 2) = [] then
    (⟨false, [FloatVal.finite 0]⟩, ⟨false, [FloatVal.finite 0]⟩)
  else
    emitFeatures (FloatVal.finite (dissValue
      (selectPartials (binFreqs sr bs) (binMags buf bs)
        (peakIdx (magDiffs (binMags buf bs)) (bs / 2)))))

/-- Claim C6 (degenerate zero output): whenever the peak detector finds no
peaks, `process` returns an untimed feature carrying the single value 0 on
both output streams — it neither raises a fatal error (the function is
total) nor omits the block. -/
theorem C6_no_peaks_zero_output (sr : ℝ) (bs : ℕ) (buf : ℕ → ℝ)
    (h : peakIdx (magDiffs (binMags buf bs)) (bs / 2) = []) :
    processSpectrum sr bs buf
      = (⟨false, [FloatVal.finite 0]⟩, ⟨false, [FloatVal.finite 0]⟩) := by
  unfold processSpectrum
  rw [if_pos h]

theorem C6_witness :
    peakIdx (magDiffs (binMags (fun _ => (0:ℝ)) 4)) (4 / 2) = [] ∧
    processSpectrum 44100 4 (fun _ => (0:ℝ))
      = (⟨false, [FloatVal.finite 0]⟩, ⟨false, [FloatVal.finite 0]⟩) := by
  have hmags : binMags (fun _ => (0:ℝ)) 4 = [0, 0] := by
    simp only [binMags, List.range']
    norm_num [Real.sqrt_zero]
  have hdiffs : magDiffs [(0:ℝ), 0] = [0, 0, 0] := by
    simp only [magDiffs, List.range', List.length_cons, List.length_singleton]
    norm_num [List.getD]
  have hpk : peakIdx [(0:ℝ), 0, 0] 2 = [] := by
    simp only [peakIdx, List.range']
    norm_num [List.getD, peakThresh]
  have hchain : peakIdx (magDiffs (binMags (fun _ => (0:ℝ)) 4)) (4 / 2) = [] := by
    rw [hmags, show (4:ℕ)/2 = 2 from rfl, hdiffs, hpk]
  exact ⟨hchain, C6_no_peaks_zero_output 44100 4 (fun _ => (0:ℝ)) hchain⟩

theorem C5_counterexample :
    (processSpectrum 8 8 (fun k => if k = 4 then (4:ℝ) else 0)).2.values
      = [FloatVal.neginf]
    ∧ ¬ (∀ v ∈ (processSpectrum 8 8 (fun k => if k = 4 then (4:ℝ) else 0)).2.values,
          v.isFinite = true) := by
  have h16 : Real.sqrt (16:ℝ) = 4 := by
    rw [show (16:ℝ) = 4^2 by norm_num]
    exact Real.sqrt_sq (by norm_num)
  have hmags : binMags (fun k => if k = 4 then (4:ℝ) else 0) 8 = [0, 1, 0, 0] := by
    simp only [binMags, List.range']
    norm_num [h16, Real.sqrt_zero]
  have hdiffs : magDiffs [(0:ℝ), 1, 0, 0] = [0, 1, -1, 0, 0] := by
    simp only [magDiffs, List.range', List.length_cons, List.length_singleton]
    norm_num [List.getD]
  have hpk : peakIdx [(0:ℝ), 1, -1, 0, 0] 4 = [2] := by
    simp only [peakIdx, List.range']
    norm_num [List.getD, peakThresh]
  have hchain : peakIdx (magDiffs (binMags (fun k => if k = 4 then (4:ℝ) else 0) 8)) (8 / 2)
      = [2] := by
    rw [hmags, show (8:ℕ)/2 = 4 from rfl, hdiffs, hpk]
  have hfreqs : binFreqs 8 8 = [1, 2, 3, 4] := by
    simp only [binFreqs, List.range']
    norm_num
  have hsel : selectPartials [(1:ℝ), 2, 3, 4] [(0:ℝ), 1, 0, 0] [2] = [((3:ℝ), (0:ℝ))] := by
    simp only [selectPartials, List.map_cons, List.map_nil, List.mergeSort]
    norm_num [List.getD]
  have hdv : dissValue [((3:ℝ), (0:ℝ))] = 0 := by
    simp [dissValue]
  have hmain : (processSpectrum 8 8 (fun k => if k = 4 then (4:ℝ) else 0)).2.values
      = [FloatVal.neginf] := by
    unfold processSpectrum
    rw [hchain, if_neg (by simp), hmags, hfreqs, hsel, hdv]
    simp [emitFeatures, FloatVal.isFinite, log10F]
  refine ⟨hmain, ?_⟩
  intro h
  have hcon := h FloatVal.neginf (by rw [hmain]; simp)
  simp [FloatVal.isFinite] at hcon

theorem byFreq_total (u v : ℝ × ℝ) : byFreq u v || byFreq v u := by
  unfold byFreq
  rcases le_total u.1 v.1 with h | h <;> simp [h]

theorem byFreq_trans (u v w : ℝ × ℝ) : byFreq u v → byFreq v w → byFreq u w := by
  unfold byFreq
  intro h1 h2
  simp only [decide_eq_true_eq] at h1 h2 ⊢
  exact le_trans h1 h2

theorem byMagDesc_total (u v : ℝ × ℕ) : byMagDesc u v || byMagDesc v u := by
  unfold byMagDesc
  rcases lt_trichotomy u.1 v.1 with h | h | h
  · simp [h]
  · rcases Nat.le_total u.2 v.2 with h2 | h2 <;> simp [h, h2]
  · simp [h]

theorem byMagDesc_trans (u v w : ℝ × ℕ) :
    byMagDesc u v → byMagDesc v w → byMagDesc u w := by
  unfold byMagDesc
  intro h1 h2
  simp only [decide_eq_true_eq] at h1 h2 ⊢
  rcases h1 with h1 | ⟨h1e, h1i⟩ <;> rcases h2 with h2 | ⟨h2e, h2i⟩
  · exact Or.inl (lt_trans h2 h1)
  · exact Or.inl (by rw [← h2e]; exact h1)
  · exact Or.inl (by rw [h1e]; exact h2)
  · exact Or.inr ⟨h1e.trans h2e, le_trans h1i h2i⟩

/-- Claim C9 (partial selection): the roughness computation uses exactly
`min(#peaks, 20)` partials; they are the dominant peaks under the
descending-magnitude order (ties by original bin index) — every kept entry
dominates every dropped entry of the magnitude-sorted peak list — and the
selected subset, mapped to its (frequency, magnitude) pairs, is re-sorted
into ascending frequency order before the pairwise summation. -/
theorem C9_partial_selection (freqs mags : List ℝ) (peaks : List ℕ) :
    (selectPartials freqs mags peaks).length = min peaks.length 20
    ∧ List.Sorted (fun u v : ℝ × ℝ => u.1 ≤ v.1) (selectPartials freqs mags peaks)
    ∧ ∃ kept dropped : List (ℝ × ℕ),
        (peaks.map (fun p => (mags.getD p 0, p))).mergeSort byMagDesc = kept ++ dropped
        ∧ kept.length = min peaks.length 20
        ∧ (∀ u ∈ kept, ∀ v ∈ dropped, byMagDesc u v = true)
        ∧ (selectPartials freqs mags peaks).Perm
            (kept.map (fun q => (freqs.getD q.2 0, mags.getD q.2 0))) := by
  refine ⟨?_, ?_, ?_⟩
  · unfold selectPartials
    simp only [List.length_mergeSort, List.length_map, List.length_take]
    omega
  · have hpw := List.sorted_mergeSort
      (fun a b c => byFreq_trans a b c) (fun a b => byFreq_total a b)
      ((((peaks.map (fun p => (mags.getD p 0, p))).mergeSort byMagDesc).take
          (min peaks.length 20)).map (fun q => (freqs.getD q.2 0, mags.getD q.2 0)))
    unfold selectPartials
    exact hpw.imp (fun h => by
      have := of_decide_eq_true h
      exact this)
  · refine ⟨((peaks.map (fun p => (mags.getD p 0, p))).mergeSort byMagDesc).take
        (min peaks.length 20),
      ((peaks.map (fun p => (mags.getD p 0, p))).mergeSort byMagDesc).drop
        (min peaks.length 20), ?_, ?_, ?_, ?_⟩
    · exact (List.take_append_drop _ _).symm
    · simp only [List.length_take, List.length_mergeSort, List.length_map]
      omega
    · have hpw := List.sorted_mergeSort
        (fun a b c => byMagDesc_trans a b c) (fun a b => byMagDesc_total a b)
        (peaks.map (fun p => (mags.getD p 0, p)))
      rw [← List.take_append_drop (min peaks.length 20)
        ((peaks.map (fun p => (mags.getD p 0, p))).mergeSort byMagDesc)] at hpw
      exact (List.pairwise_append.mp hpw).2.2
    · exact List.mergeSort_perm _ _
